import Mathlib

set_option autoImplicit false

/-!
Verification of core behaviours of the Langium language-engineering runtime.

The development shallowly embeds the relevant parts of the sources:

* `ast-util.ts` — AST helper functions (`getDocument`, `streamContents`,
  `streamReferences`, `streamAllContents`);
* `langium-parser.ts` — the parser's in-progress object operations
  (`assign`, `initializeElement`, `construct`, `buildReference`);
* `validation-registry.ts` — check registration and exception wrapping;
* `document-builder.ts` — the build pipeline of `DefaultDocumentBuilder`;
* `lsp/pull-diagnostic-provider.ts` — the pull-diagnostics cache.

JavaScript objects are modelled as association lists from property names to
values (preserving JS key insertion order), `undefined` as `Option.none`,
and generator-based streams as the lists of values they yield, in yield order.
-/

namespace Langium

/-- A property name starting with the character `$`
(`name.startsWith('$')` on a one-character pattern: the first character is
`$`). -/
def startsWithDollar (key : String) : Bool :=
  key.data.head? = some '$'

/-! ## AST utilities: the container chain and `getDocument` -/

namespace AstUtil

/-- A view of an AST node keeping only the fields read by `getDocument`:
the optional `$document` field and the `$container` back-edge.  The container
chain of a real AST node is finite (it ends at the root), so the chain is
modelled inductively: `root` is a node without `$container`, `child` is a node
whose `$container` is present. -/
inductive ChainNode (Doc : Type) where
  | root (document : Option Doc)
  | child (document : Option Doc) (container : ChainNode Doc)

/-- The `$document` field of a node. -/
def document? {Doc : Type} : ChainNode Doc → Option Doc
  | .root d => d
  | .child d _ => d

/-- Embeds `getDocument` from `ast-util.ts`: walk up `$container` while the
current node has no `$document` and still has a container; then either return
the `$document` found or throw `Error('AST node has no document.')`. -/
def getDocument {Doc : Type} : ChainNode Doc → Except String Doc
  | .root d =>
    match d with
    | some doc => .ok doc
    | none => .error "AST node has no document."
  | .child d c =>
    match d with
    | some doc => .ok doc
    | none => getDocument c

/-- The container chain of a node: the node itself followed by all its
transitive containers, nearest first. -/
def containerChain {Doc : Type} : ChainNode Doc → List (ChainNode Doc)
  | .root d => [.root d]
  | .child d c => .child d c :: containerChain c

end AstUtil

/-! ## AST utilities: content and reference streams -/

namespace Streams

mutual
/-- A JS value as inspected by the traversal functions of `ast-util.ts`:
an AST node (`typeof value === 'object'` with a string `$type`) with its
properties in key insertion order, a Reference (`$refName` is a string), an
array, or any other value (`prim`).  Properties whose names start with `$`
(`$container`, `$document`, `$cstNode`, ...) appear in the property list
like any others; in the real heap they are back-pointers into the same
tree, and since the traversals never follow them their targets are
irrelevant here, so any value may stand for them. -/
inductive AVal where
  | node (typ : String) (props : Props)
  | ref (refName : String)
  | arr (elems : Elems)
  | prim

/-- The property list of an AST node, in `Object.keys` order. -/
inductive Props where
  | nil
  | cons (key : String) (value : AVal) (rest : Props)

/-- The element list of a JS array. -/
inductive Elems where
  | nil
  | cons (value : AVal) (rest : Elems)
end

/-- Embeds `isAstNode`: an object whose `$type` is a string. -/
def isAstNode : AVal → Bool
  | .node .. => true
  | _ => false

/-- Embeds `isReference`: an object whose `$refName` is a string. -/
def isReference : AVal → Bool
  | .ref _ => true
  | _ => false

/-- One value yielded by `streamContents`: a child node, the property it was
found under, and its index when it came from an array value. -/
structure AstNodeContent where
  node : AVal
  property : String
  index : Option Nat

/-- One value yielded by `streamReferences`: a Reference value, the node
holding it, the property it was found under, and its index when it came
from an array value. -/
structure AstNodeReference where
  reference : AVal
  container : AVal
  property : String
  index : Option Nat

/-- The inner `while` loop of `streamContents` over an array value: yield
every element that is an AST node, together with its index. -/
def nodeContentsOfElems (property : String) (i : Nat) : Elems → List AstNodeContent
  | .nil => []
  | .cons v rest =>
    (if isAstNode v then [{ node := v, property := property, index := some i }] else [])
      ++ nodeContentsOfElems property (i + 1) rest

/-- The body of `streamContents` for a single property: skip names starting
with `$`; yield the value if it is an AST node; yield the node elements of
an array value; yield nothing otherwise. -/
def contentsOfProp (property : String) (value : AVal) : List AstNodeContent :=
  if startsWithDollar property then []
  else if isAstNode value then [{ node := value, property := property, index := none }]
  else
    match value with
    | .arr es => nodeContentsOfElems property 0 es
    | _ => []

/-- The outer loop of `streamContents` over `Object.keys(node)`. -/
def contentsOfProps : Props → List AstNodeContent
  | .nil => []
  | .cons key value rest => contentsOfProp key value ++ contentsOfProps rest

/-- Embeds `streamContents` from `ast-util.ts` as the list of values the
stream yields, in yield order.  The source only applies it to AST nodes;
other values have no keys to iterate. -/
def streamContents : AVal → List AstNodeContent
  | .node _ props => contentsOfProps props
  | _ => []

/-- The inner `while` loop of `streamReferences` over an array value. -/
def refsOfElems (container : AVal) (property : String) (i : Nat) :
    Elems → List AstNodeReference
  | .nil => []
  | .cons v rest =>
    (if isReference v then
      [{ reference := v, container := container, property := property, index := some i }]
     else [])
      ++ refsOfElems container property (i + 1) rest

/-- The body of `streamReferences` for a single property. -/
def refsOfProp (container : AVal) (property : String) (value : AVal) :
    List AstNodeReference :=
  if startsWithDollar property then []
  else if isReference value then
    [{ reference := value, container := container, property := property, index := none }]
  else
    match value with
    | .arr es => refsOfElems container property 0 es
    | _ => []

/-- The outer loop of `streamReferences` over `Object.keys(node)`. -/
def refsOfProps (container : AVal) : Props → List AstNodeReference
  | .nil => []
  | .cons key value rest => refsOfProp container key value ++ refsOfProps container rest

/-- Embeds `streamReferences` from `ast-util.ts` as the list of values the
stream yields, in yield order. -/
def streamReferences : AVal → List AstNodeReference
  | .node t props => refsOfProps (.node t props) props
  | _ => []

theorem sizeOf_node_of_mem_nodeContentsOfElems (property : String) (c : AstNodeContent) :
    ∀ (i : Nat) (es : Elems), c ∈ nodeContentsOfElems property i es → sizeOf c.node < sizeOf es
  | _, .nil, hc => by simp [nodeContentsOfElems] at hc
  | i, .cons v rest, hc => by
    simp only [nodeContentsOfElems, List.mem_append] at hc
    rcases hc with hc | hc
    · cases hv : isAstNode v <;> simp [hv] at hc
      subst hc
      simp only [Elems.cons.sizeOf_spec]
      omega
    · have := sizeOf_node_of_mem_nodeContentsOfElems property c (i + 1) rest hc
      simp only [Elems.cons.sizeOf_spec]
      omega

theorem sizeOf_node_of_mem_contentsOfProp (property : String) (c : AstNodeContent) :
    ∀ (value : AVal), c ∈ contentsOfProp property value → sizeOf c.node ≤ sizeOf value
  | .node t ps, hc => by
    cases hp : startsWithDollar property <;>
      simp [contentsOfProp, hp, isAstNode] at hc
    subst hc
    exact Nat.le_refl _
  | .ref r, hc => by
    cases hp : startsWithDollar property <;>
      simp [contentsOfProp, hp, isAstNode] at hc
  | .arr es, hc => by
    cases hp : startsWithDollar property <;>
      simp [contentsOfProp, hp, isAstNode] at hc
    have := sizeOf_node_of_mem_nodeContentsOfElems property c 0 es hc
    simp only [AVal.arr.sizeOf_spec]
    omega
  | .prim, hc => by
    cases hp : startsWithDollar property <;>
      simp [contentsOfProp, hp, isAstNode] at hc

theorem sizeOf_node_of_mem_contentsOfProps (c : AstNodeContent) :
    ∀ (ps : Props), c ∈ contentsOfProps ps → sizeOf c.node < sizeOf ps
  | .nil, hc => by simp [contentsOfProps] at hc
  | .cons key value rest, hc => by
    simp only [contentsOfProps, List.mem_append] at hc
    rcases hc with hc | hc
    · have := sizeOf_node_of_mem_contentsOfProp key c value hc
      simp only [Props.cons.sizeOf_spec]
      omega
    · have := sizeOf_node_of_mem_contentsOfProps c rest hc
      simp only [Props.cons.sizeOf_spec]
      omega

theorem sizeOf_node_of_mem_streamContents (n : AVal) (c : AstNodeContent)
    (hc : c ∈ streamContents n) : sizeOf c.node < sizeOf n :=
  match n, hc with
  | .node _ props, hc => by
    have := sizeOf_node_of_mem_contentsOfProps c props hc
    simp only [AVal.node.sizeOf_spec]
    omega
  | .ref _, hc => by simp [streamContents] at hc
  | .arr _, hc => by simp [streamContents] at hc
  | .prim, hc => by simp [streamContents] at hc

/-- Embeds `streamAllContents` from `ast-util.ts`: the tree stream rooted at
the node whose children are given by `streamContents` — a depth-first
pre-order traversal yielding every content of the tree (the pseudo-content
wrapping the root itself is not yielded; the source's callers process the
root separately).  Totality of this definition is the termination half of
the traversal claim: the values reachable through non-`$` properties form a
tree, cycles running only through the skipped `$` back-pointers. -/
def streamAllContents (n : AVal) : List AstNodeContent :=
  (streamContents n).attach.flatMap (fun c => c.1 :: streamAllContents c.1.node)
termination_by sizeOf n
decreasing_by exact sizeOf_node_of_mem_streamContents n c.1 c.2

mutual
/-- The number of AST-node occurrences a single property value contributes
to the content tree: a node counts itself plus its own tree, an array
contributes its node elements, anything else contributes nothing. -/
def descCountVal : AVal → Nat
  | .node _ ps => 1 + descCountProps ps
  | .arr es => descCountElems es
  | .ref _ => 0
  | .prim => 0

/-- The number of AST-node occurrences below a property list, ignoring
properties whose names start with `$`. -/
def descCountProps : Props → Nat
  | .nil => 0
  | .cons k v rest => (if startsWithDollar k then 0 else descCountVal v) + descCountProps rest

/-- The number of AST-node occurrences contributed by array elements
(only elements that are nodes count; nested arrays are not traversed,
matching `streamContents`). -/
def descCountElems : Elems → Nat
  | .nil => 0
  | .cons v rest =>
    (match v with
     | .node _ ps => 1 + descCountProps ps
     | _ => 0) + descCountElems rest
end

/-- The number of node occurrences in the content tree below a node: each
child position reachable through non-`$` properties, counted once. -/
def treeNodeCount : AVal → Nat
  | .node _ ps => descCountProps ps
  | _ => 0

end Streams

/-! ## Parser: in-progress objects, assignments, construction, references -/

namespace Parser

/-- Values stored in the parser's in-progress objects.  `str`, `bool` and
`num` are JS primitives (the numeric value of `parseFloat(text)` is kept as
the uninterpreted token text, since float semantics are external to this
model); `arr` is a JS array; `obj` is a plain object given by its properties
in key insertion order; `refv` is a Reference object built by
`buildReference` ( `$refName` and the cross-reference id); `containerRef`
stands for the `$container` back-edge installed by `construct`, whose target
identity is a heap pointer that the claims never inspect. -/
inductive PVal where
  | str (s : String)
  | bool (b : Bool)
  | num (raw : String)
  | arr (elems : List PVal)
  | obj (props : List (String × PVal))
  | refv (refName : String) (crossRefId : String)
  | containerRef

/-- A JS object: its properties in key insertion order. -/
abbrev Obj := List (String × PVal)

/-- Property read `o[k]`; an absent property is JS `undefined`. -/
def getProp : Obj → String → Option PVal
  | [], _ => none
  | (k, v) :: rest, f => if k = f then some v else getProp rest f

/-- Property write `o[k] = v`: overwrite in place if the key exists,
otherwise append the new key (JS key insertion order). -/
def setProp : Obj → String → PVal → Obj
  | [], f, v => [(f, v)]
  | (k, w) :: rest, f, v =>
    if k = f then (f, v) :: rest else (k, w) :: setProp rest f v

/-- Embeds `feature.replace(/\^/g, '')` from `LangiumParser.assign`:
every caret character is removed. -/
def stripCarets (feature : String) : String :=
  String.mk (feature.data.filter (fun c => c ≠ '^'))

/-- The Reference value built by `LangiumParser.buildReference` as it is
stored into a feature by `assign` (the lazy `ref` getter and its `_ref`
cell are modelled separately below). -/
def buildReferenceValue (text : String) (crossRefId : String) : PVal :=
  .refv text crossRefId

/-- Embeds `LangiumParser.assign`: strip carets from the feature name,
build a Reference if a cross-reference id is present and the value is a
string, then dispatch on the assignment operator: `=` overwrites, `?=`
stores `true`, `+=` pushes onto an array, first replacing the current value
by a fresh empty array if it is not an array. -/
def assign (o : Obj) (operator : String) (feature : String) (value : PVal)
    (crossRefId : Option String) : Obj :=
  let feature := stripCarets feature
  let item :=
    match crossRefId, value with
    | some id, .str s => buildReferenceValue s id
    | _, _ => value
  match operator with
  | "=" => setProp o feature item
  | "?=" => setProp o feature (.bool true)
  | "+=" =>
    match getProp o feature with
    | some (.arr xs) => setProp o feature (.arr (xs ++ [item]))
    | _ => setProp o feature (.arr [item])
  | _ => o

/-- A grammar access element as inspected by `initializeElement`: an
assignment with its feature and operator, or any other element. -/
inductive GrammarElement where
  | assignment (feature : String) (operator : String)
  | other

/-- Embeds `LangiumParser.initializeElement`.  The source iterates over the
values of the grammar access element, filtering assignments whose operator is
an array operator, but the initialisation statement itself
(`item[element.feature] = [];`) is commented out in the source (guarded by a
`TODO`), so the method performs no mutation at all. -/
def initializeElement (_grammarAccessElement : List GrammarElement) (o : Obj) : Obj :=
  o

/-- The `$container` fix-up applied by `construct` to a property value that
is a JS object: `value.$container = obj`.  The back-edge target is the
enclosing object itself — a heap cycle that an inductive value cannot
represent — so the edge is recorded as the opaque marker `containerRef`;
no claim inspects the target.  Reference objects also receive the mark in
the source; the model keeps them unchanged since they carry no property
list here. -/
def setContainer : PVal → PVal
  | .obj props => .obj (setProp props "$container" .containerRef)
  | v => v

/-- The loop of `LangiumParser.construct` that finalises `$container`
pointers: for every property whose name does not start with `$`, mark each
object element of an array value, or the value itself when it is an object. -/
def constructSetContainers (o : Obj) : Obj :=
  o.map (fun kv =>
    if startsWithDollar kv.1 then kv
    else
      match kv.2 with
      | .arr elems => (kv.1, .arr (elems.map setContainer))
      | v => (kv.1, setContainer v))

/-- Embeds `LangiumParser.construct` (the non-recording path): finalise
`$container` pointers, attach the CST node (`nodeBuilder.construct(obj)`;
the CST builder is outside the modelled sources, so the attached node's text
is passed in as `cstText`), then either return the raw CST text for a
`String`-typed object, the parsed number for a `Number`-typed object, or the
object itself. -/
def construct (cstText : String) (o : Obj) : PVal :=
  let o := constructSetContainers o
  match getProp o "$type" with
  | some (.str "String") => .str cstText
  | some (.str "Number") => .num cstText
  | _ => .obj o

/-- The `_ref` cell of a Reference built by `LangiumParser.buildReference`:
the textual `$refName` and the backing field `_ref`, which is `undefined`
(`none`) until the getter stores a linker result into it. -/
structure ReferenceCell (T : Type) where
  refName : String
  _ref : Option T

/-- Embeds the object literal of `LangiumParser.buildReference`: a fresh
Reference whose `_ref` backing field is still `undefined`. -/
def buildReferenceCell {T : Type} (text : String) : ReferenceCell T :=
  { refName := text, _ref := none }

/-- Outcome of one read of the `ref` getter: the value returned, the cell
afterwards, and whether the linker was invoked during this read. -/
structure RefAccess (T : Type) where
  value : Option T
  cell : ReferenceCell T
  linkerInvoked : Bool

/-- Embeds the `ref` getter of the Reference built by
`LangiumParser.buildReference`: if `reference._ref === undefined`, invoke
the linker and store its result in `_ref`; then return `_ref`.  `link` is
the result the linker produces for this reference (it is fixed for a fixed
AST and fixed scopes, which is the determinism premise of the claim). -/
def refGet {T : Type} (link : Option T) (r : ReferenceCell T) : RefAccess T :=
  match r._ref with
  | none => { value := link, cell := { r with _ref := link }, linkerInvoked := true }
  | some t => { value := some t, cell := r, linkerInvoked := false }

end Parser

/-! ## Validation registry (`validation-registry.ts`) -/

namespace Validation

/-- Outcome of running one validation check on one node: the diagnostics it
passed to the acceptor before completing or throwing, and the exception it
threw, if any (`none` when the check returned normally). -/
structure CheckOutcome (D : Type) where
  diags : List D
  err : Option String

/-- A validation check, as observable behaviour on a node. -/
abbrev ValidationCheck (N D : Type) := N → CheckOutcome D

/-- Embeds `ValidationRegistry.wrapValidationException`: the wrapped check
runs the original check inside `try`/`catch`; diagnostics accepted before a
throw are kept, and the caught exception is logged to the console, never
rethrown. -/
def wrapValidationException {N D : Type} (check : ValidationCheck N D) : ValidationCheck N D :=
  fun node =>
    let r := check node
    { diags := r.diags, err := none }

/-- The pre-generated reflection consumed by the registry: the list of all
statically known type names and the static subtype test. -/
structure AstReflection where
  getAllTypes : List String
  isSubtype : String → String → Bool

/-- The registry's `validationChecks` map, read with default `[]`
(`this.validationChecks.get(type) ?? []`). -/
abbrev ValidationChecks (N D : Type) := String → List (ValidationCheck N D)

/-- The initial, empty `validationChecks` map. -/
def emptyValidationChecks (N D : Type) : ValidationChecks N D := fun _ => []

/-- The loop of `ValidationRegistry.doRegister` over an explicit list of
types: for every `subtype` drawn from the list with
`isSubtype(subtype, type)`, append the check to that subtype's check list
(creating the list if absent). -/
def doRegisterOn {N D : Type} (r : AstReflection) :
    List String → String → ValidationCheck N D → ValidationChecks N D → ValidationChecks N D
  | [], _, _, m => m
  | subtype :: rest, typ, check, m =>
    let m' : ValidationChecks N D :=
      if r.isSubtype subtype typ then
        fun s => if s = subtype then m s ++ [check] else m s
      else m
    doRegisterOn r rest typ check m'

/-- Embeds `ValidationRegistry.doRegister`: the loop above runs over
`this.reflection.getAllTypes()`. -/
def doRegister {N D : Type} (r : AstReflection) (typ : String)
    (check : ValidationCheck N D) (m : ValidationChecks N D) : ValidationChecks N D :=
  doRegisterOn r r.getAllTypes typ check m

/-- Embeds `ValidationRegistry.register`: for every entry of the record (a
type name with one or several checks; absent entries are dropped before the
model), wrap each check with `wrapValidationException` and register it via
`doRegister`, in record order. -/
def register {N D : Type} (r : AstReflection)
    (checksRecord : List (String × List (ValidationCheck N D)))
    (m : ValidationChecks N D) : ValidationChecks N D :=
  checksRecord.foldl
    (fun m p => p.2.foldl (fun m check => doRegister r p.1 (wrapValidationException check) m) m)
    m

/-- Embeds `ValidationRegistry.getChecks`:
`this.validationChecks.get(type) ?? []`. -/
def getChecks {N D : Type} (m : ValidationChecks N D) (typ : String) : List (ValidationCheck N D) :=
  m typ

/-- A check map all of whose stored checks went through
`wrapValidationException`; this is how `register` fills the map. -/
def AllWrapped {N D : Type} (m : ValidationChecks N D) : Prop :=
  ∀ s, ∃ cs : List (ValidationCheck N D), m s = cs.map wrapValidationException

/-- Modelled from the spec: the Validation Runner (`DocumentValidator`, not
among the provided sources) invokes the checks registered for a node one
after the other; an exception escaping a check would abort the remaining
checks for that node (diagnostics accepted so far are kept). -/
def runChecks {N D : Type} (checks : List (ValidationCheck N D)) (node : N) :
    List D × Option String :=
  match checks with
  | [] => ([], none)
  | c :: rest =>
    let r := c node
    match r.err with
    | some e => (r.diags, some e)
    | none =>
      let (ds, e) := runChecks rest node
      (r.diags ++ ds, e)

/-- Modelled from the spec: the Validation Runner "walks every AST node and
invokes all checks registered for that node's exact type"; an exception
escaping the checks of one node would abort the walk over the remaining
nodes. -/
def runValidation {N D : Type} (m : ValidationChecks N D) (typeOf : N → String)
    (nodes : List N) : List D × Option String :=
  match nodes with
  | [] => ([], none)
  | n :: rest =>
    let (ds, e) := runChecks (getChecks m (typeOf n)) n
    match e with
    | some err => (ds, some err)
    | none =>
      let (ds2, e2) := runValidation m typeOf rest
      (ds ++ ds2, e2)

end Validation

/-! ## Document builder (`document-builder.ts`) -/

namespace Builder

/-- The pipeline stages named by the specification's state machine, plus the
diagnostics push.  `index` and `link` are stages the specification claims
and are needed to state that claim; the embedded `build` never emits them. -/
inductive BuildStage where
  | parse
  | index
  | computeScopes
  | link
  | validate
  | sendDiagnostics
deriving DecidableEq

/-- The parse result stored on the document
(`value`, `parserErrors`, `lexerErrors`). -/
structure ParseResultT (V : Type) where
  value : V
  parserErrors : List String
  lexerErrors : List String

/-- The document fields `DefaultDocumentBuilder.build` writes: the parse
result and the precomputed scopes.  Both start out absent; the document has
no state field in the source. -/
structure BuildDoc (V S : Type) where
  uri : String
  parseResult : Option (ParseResultT V)
  precomputedScopes : Option S

/-- The services `build` consults: the parser, scope computation, the
document validator, and whether a connection for the diagnostics push is
configured. -/
structure BuildServices (V S D : Type) where
  parse : BuildDoc V S → ParseResultT V
  computeScope : V → S
  validateDocument : BuildDoc V S → List D
  hasConnection : Bool

/-- Embeds `DefaultDocumentBuilder.build`: parse the document and store the
parse result, compute and store the precomputed scopes, validate the
processed document, and send the diagnostics when a connection is
configured.  The third component instruments the body with the stage labels
of the operations it invokes, in execution order. -/
def build {V S D : Type} (svc : BuildServices V S D) (doc : BuildDoc V S) :
    BuildDoc V S × List D × List BuildStage :=
  let parseResult := svc.parse doc
  let trace := [BuildStage.parse]
  let doc := { doc with parseResult := some parseResult }
  let scopes := svc.computeScope parseResult.value
  let trace := trace ++ [BuildStage.computeScopes]
  let doc := { doc with precomputedScopes := some scopes }
  let diagnostics := svc.validateDocument doc
  let trace := trace ++ [BuildStage.validate]
  let trace := if svc.hasConnection then trace ++ [BuildStage.sendDiagnostics] else trace
  (doc, diagnostics, trace)

/-- A concrete instantiation of the build services over trivial payload
types, used to evaluate the pipeline on a concrete document. -/
def svcUnit : BuildServices Unit Unit Unit :=
  { parse := fun _ => { value := (), parserErrors := [], lexerErrors := [] }
    computeScope := fun _ => ()
    validateDocument := fun _ => []
    hasConnection := false }

/-- A concrete document before any build. -/
def docUnit : BuildDoc Unit Unit :=
  { uri := "file:///a.dmodel", parseResult := none, precomputedScopes := none }

end Builder

/-! ## Pull diagnostics provider (`lsp/pull-diagnostic-provider.ts`) -/

namespace PullDiagnostics

/-- The document states of the build state machine
(`DocumentState` is imported by the provider; its declaration is not among
the provided sources, so it is modelled from the spec's ordered list
`Changed → Parsed → IndexedContent → ComputedScopes → Linked → Validated`). -/
inductive DocumentState where
  | changed
  | parsed
  | indexedContent
  | computedScopes
  | linked
  | validated
deriving DecidableEq

/-- A full diagnostic report as cached by the provider
(`kind: 'full'` with its items and result id).  The source stores the
result id as the decimal string of the counter; since decimal strings of
distinct naturals are distinct, the model keeps the number itself. -/
structure FullReport (D : Type) where
  items : List D
  resultId : Nat

/-- The response of `getDocumentDiagnostics`: either an `unchanged` report
carrying only a result id, or a full report. -/
inductive DiagnosticReport (D : Type) where
  | unchanged (resultId : Nat)
  | full (items : List D) (resultId : Nat)

/-- The document fields the provider reads: its URI, its diagnostics (absent
until validation ran; the source reads `document.diagnostics!`), and its
build state. -/
structure PDoc (D : Type) where
  uri : String
  diagnostics : Option (List D)
  state : DocumentState

/-- The provider's mutable fields: the `nextId` counter and the
`existingReports` map, plus `issued`, instrumentation recording every result
id ever minted (not a field of the source class) so that the freshness of
newly minted ids can be stated. -/
structure ProviderState (D : Type) where
  nextId : Nat
  existingReports : List (String × FullReport D)
  issued : List Nat

/-- The provider state right after construction. -/
def initialProviderState (D : Type) : ProviderState D :=
  { nextId := 0, existingReports := [], issued := [] }

/-- Map read `this.existingReports.get(uri)`. -/
def lookupReport {D : Type} : List (String × FullReport D) → String → Option (FullReport D)
  | [], _ => none
  | (k, v) :: rest, uri => if k = uri then some v else lookupReport rest uri

/-- Map removal `this.existingReports.delete(uri)`: drop the entry stored
under the key (the association list holds at most one entry per key). -/
def deleteReport {D : Type} : List (String × FullReport D) → String → List (String × FullReport D)
  | [], _ => []
  | (k, v) :: rest, uri =>
    if k = uri then deleteReport rest uri else (k, v) :: deleteReport rest uri

/-- Map write `this.existingReports.set(uri, report)`: store the report
under the key, dropping any previous entry (lookup-equivalent to the JS
`Map.set`). -/
def setReport {D : Type} (reports : List (String × FullReport D)) (uri : String)
    (report : FullReport D) : List (String × FullReport D) :=
  (uri, report) :: deleteReport reports uri

/-- Embeds `DefaultPullDiagnosticProvider.getDocumentDiagnostics` (the
resolved-promise path; a cancelled `waitUntil` rejects and changes no
state).  Case 1: a cached report exists — return `unchanged` when the
caller's previous id is present and equals the cached id, otherwise the
cached full report.  Case 2: no cached report — after awaiting
`waitUntil(Validated, uri)`, mint `resultId` from `nextId`, increment
`nextId`, build a full report from `document.diagnostics!`, cache and
return it. -/
def getDocumentDiagnostics {D : Type} (doc : PDoc D) (previousResultId : Option Nat)
    (st : ProviderState D) : DiagnosticReport D × ProviderState D :=
  match lookupReport st.existingReports doc.uri with
  | some report =>
    match previousResultId with
    | some prev =>
      if prev = report.resultId then (.unchanged prev, st)
      else (.full report.items report.resultId, st)
    | none => (.full report.items report.resultId, st)
  | none =>
    let resultId := st.nextId
    let report : FullReport D := { items := (doc.diagnostics).getD [], resultId := resultId }
    (.full report.items resultId,
      { nextId := st.nextId + 1
        existingReports := setReport st.existingReports doc.uri report
        issued := resultId :: st.issued })

/-- Embeds `DefaultPullDiagnosticProvider.invalidate`:
`invalidated.forEach(uri => this.existingReports.delete(uri))`. -/
def invalidate {D : Type} (invalidated : List String) (st : ProviderState D) : ProviderState D :=
  { st with
    existingReports :=
      invalidated.foldl (fun reports uri => deleteReport reports uri) st.existingReports }

/-- Embeds the subscription installed by the provider's constructor:
`this.builder.onUpdate((changed, deleted) => this.invalidate([...changed, ...deleted]))`. -/
def onUpdate {D : Type} (changed deleted : List String) (st : ProviderState D) : ProviderState D :=
  invalidate (changed ++ deleted) st

/-- The invariant tying the instrumentation to the counter: every id ever
issued is below `nextId`. -/
def IssuedBelowNext {D : Type} (st : ProviderState D) : Prop :=
  ∀ i ∈ st.issued, i < st.nextId

end PullDiagnostics

/-! ## Theorems -/

/-- C10: `getDocument(node)` returns the `$document` of the nearest node on
the `$container` chain (starting at the node itself) that has one set, and
throws an `Error` — rather than returning `undefined` — when neither the
node nor any transitive container has `$document` set. -/
theorem getDocument_returns_nearest_document {Doc : Type} (n : AstUtil.ChainNode Doc) :
    AstUtil.getDocument n =
      match List.findSome? AstUtil.document? (AstUtil.containerChain n) with
      | some d => Except.ok d
      | none => Except.error "AST node has no document." := by
  induction n with
  | root d =>
    cases d <;>
      simp [AstUtil.getDocument, AstUtil.containerChain, AstUtil.document?,
        List.findSome?_cons]
  | child d c ih =>
    cases d <;>
      simp [AstUtil.getDocument, AstUtil.containerChain, AstUtil.document?,
        List.findSome?_cons, ih]

theorem getProp_setProp_self (o : Parser.Obj) (f : String) (v : Parser.PVal) :
    Parser.getProp (Parser.setProp o f v) f = some v := by
  induction o with
  | nil => simp [Parser.setProp, Parser.getProp]
  | cons kv rest ih =>
    by_cases hk : kv.1 = f
    · simp [Parser.setProp, Parser.getProp, hk]
    · simp [Parser.setProp, Parser.getProp, hk, ih]

theorem assign_plusEq_step_arr (o : Parser.Obj) (f : String) (v : Parser.PVal)
    (xs : List Parser.PVal) (h : Parser.getProp o (Parser.stripCarets f) = some (.arr xs)) :
    Parser.assign o "+=" f v none =
      Parser.setProp o (Parser.stripCarets f) (.arr (xs ++ [v])) := by
  simp [Parser.assign, h]

theorem assign_plusEq_foldl_arr (f : String) (vs : List Parser.PVal) :
    ∀ (o : Parser.Obj) (xs : List Parser.PVal),
      Parser.getProp o (Parser.stripCarets f) = some (.arr xs) →
      Parser.getProp (vs.foldl (fun acc w => Parser.assign acc "+=" f w none) o)
          (Parser.stripCarets f) = some (.arr (xs ++ vs)) := by
  induction vs with
  | nil => intro o xs h; simpa using h
  | cons v vs ih =>
    intro o xs h
    rw [List.foldl_cons, assign_plusEq_step_arr o f v xs h]
    have h' := getProp_setProp_self o (Parser.stripCarets f) (.arr (xs ++ [v]))
    have := ih _ _ h'
    simpa using this

/-- C3: applying the `+=` assignment operator to a feature that is not yet
set, with values `v, vs...` in that order, stores an ordered array holding
exactly those values in insertion order — the array being created by the
first append. -/
theorem assign_plusEq_collects (f : String) (o : Parser.Obj) (v : Parser.PVal)
    (vs : List Parser.PVal) (h : Parser.getProp o (Parser.stripCarets f) = none) :
    Parser.getProp ((v :: vs).foldl (fun acc w => Parser.assign acc "+=" f w none) o)
        (Parser.stripCarets f) = some (.arr (v :: vs)) := by
  rw [List.foldl_cons]
  have hstep : Parser.assign o "+=" f v none =
      Parser.setProp o (Parser.stripCarets f) (.arr [v]) := by
    simp [Parser.assign, h]
  rw [hstep]
  have h' := getProp_setProp_self o (Parser.stripCarets f) (.arr [v])
  simpa using assign_plusEq_foldl_arr f vs _ [v] h'

/-- Witness for C3: three `+=` applications to the fresh feature `items` of
an in-progress object produce a 3-element array holding the values in
insertion order, not a scalar. -/
theorem assign_plusEq_collects_witness :
    Parser.getProp
        (([Parser.PVal.str "a", Parser.PVal.str "b", Parser.PVal.str "c"]).foldl
          (fun acc w => Parser.assign acc "+=" "items" w none)
          [("$type", Parser.PVal.str "T")])
        (Parser.stripCarets "items")
      = some (.arr [Parser.PVal.str "a", Parser.PVal.str "b", Parser.PVal.str "c"]) :=
  assign_plusEq_collects "items" [("$type", Parser.PVal.str "T")]
    (Parser.PVal.str "a") [Parser.PVal.str "b", Parser.PVal.str "c"] rfl

/-- C2: evaluation of the code at the failing input.  The claim — and the
doc comment of `initializeElement` in the source — says an array-valued
feature never assigned during the rule invocation ends up an empty array on
the constructed node; but the initialisation in `initializeElement` is
commented out, so for a rule of type `T` with a grammar assignment
`items += ...` that never fires, the constructed object lacks the `items`
property entirely (`undefined`, not `[]`). -/
theorem unset_array_feature_stays_absent :
    Parser.construct ""
        (Parser.initializeElement [Parser.GrammarElement.assignment "items" "+="]
          [("$type", Parser.PVal.str "T")])
      = Parser.PVal.obj [("$type", Parser.PVal.str "T")]
    ∧ Parser.getProp [("$type", Parser.PVal.str "T")] "items" = none := by
  constructor
  · rfl
  · rfl

/-- Counterexample to C4 as stated: when the first resolution attempt
yields `unresolved` (the linker returns `undefined`), a later read of `ref`
invokes the linker again — the unresolved outcome is not memoized, because
the getter re-links whenever `_ref` is still `undefined`. -/
theorem refGet_reinvokes_after_unresolved :
    ¬ ((Parser.refGet (T := Nat) none
          (Parser.refGet (T := Nat) none (Parser.buildReferenceCell "x")).cell).linkerInvoked
        = false) := by
  simp [Parser.refGet, Parser.buildReferenceCell]

/-- C4 (amended): for a Reference built by the parser and a fixed linker
outcome, the first read of `ref` invokes the linker and returns its result;
every subsequent read returns the same outcome and leaves the cell
unchanged, and it skips the linker exactly when the first resolution
succeeded — an unresolved outcome is recomputed (to the same result) on
each read. -/
theorem refGet_memoizes_successful_resolution {T : Type} (link : Option T) (text : String) :
    (Parser.refGet link (Parser.buildReferenceCell text)).value = link
    ∧ (Parser.refGet link (Parser.buildReferenceCell text)).linkerInvoked = true
    ∧ (Parser.refGet link (Parser.refGet link (Parser.buildReferenceCell text)).cell).value = link
    ∧ (Parser.refGet link (Parser.refGet link (Parser.buildReferenceCell text)).cell).cell
        = (Parser.refGet link (Parser.buildReferenceCell text)).cell
    ∧ ((Parser.refGet link (Parser.refGet link (Parser.buildReferenceCell text)).cell).linkerInvoked
          = false
        ↔ link.isSome = true) := by
  cases link <;> simp [Parser.refGet, Parser.buildReferenceCell]

/-- Counterexample to C1 as stated: on a concrete document,
`DefaultDocumentBuilder.build` does not execute the five-stage pipeline the
claim describes — there is no indexing stage and no linking stage between
parsing, scope computation and validation. -/
theorem build_lacks_index_and_link_stages :
    (Builder.build Builder.svcUnit Builder.docUnit).2.2
      ≠ [Builder.BuildStage.parse, Builder.BuildStage.index, Builder.BuildStage.computeScopes,
          Builder.BuildStage.link, Builder.BuildStage.validate] := by
  decide

/-- C1 (amended): `build(document)` runs the Parser Engine, then Scope
Computation, then the Validation Runner, in that order (followed by a
diagnostics push when a connection is configured), storing the parse result
and the precomputed scopes on the document and validating the document so
updated; it performs no separate symbol-indexing or linking stage, and the
document carries no build-state field that could advance. -/
theorem build_runs_parse_scopes_validate {V S D : Type} (svc : Builder.BuildServices V S D)
    (doc : Builder.BuildDoc V S) :
    (Builder.build svc doc).2.2
        = [Builder.BuildStage.parse, Builder.BuildStage.computeScopes, Builder.BuildStage.validate]
          ++ (if svc.hasConnection then [Builder.BuildStage.sendDiagnostics] else [])
    ∧ (Builder.build svc doc).1.parseResult = some (svc.parse doc)
    ∧ (Builder.build svc doc).1.precomputedScopes
        = some (svc.computeScope (svc.parse doc).value)
    ∧ (Builder.build svc doc).2.1
        = svc.validateDocument
            { doc with
              parseResult := some (svc.parse doc)
              precomputedScopes := some (svc.computeScope (svc.parse doc).value) } := by
  cases h : svc.hasConnection <;> simp [Builder.build, h]

theorem doRegisterOn_getChecks {N D : Type} (r : Validation.AstReflection) (T : String)
    (c : Validation.ValidationCheck N D) (S : String) :
    ∀ (types : List String) (m : Validation.ValidationChecks N D),
      Validation.doRegisterOn r types T c m S
        = m S ++ (if r.isSubtype S T then List.replicate (types.count S) c else [])
  | [], m => by simp [Validation.doRegisterOn]
  | t :: ts, m => by
    rw [Validation.doRegisterOn, doRegisterOn_getChecks r T c S ts]
    by_cases h2 : S = t
    · subst h2
      cases h1 : r.isSubtype S T <;>
        simp [h1, List.count_cons, List.replicate_succ, List.append_assoc]
    · have hne : (t == S) = false := by
        simp [beq_eq_false_iff_ne]
        exact fun h => h2 h.symm
      cases h1 : r.isSubtype t T <;>
        simp [h1, h2, List.count_cons, hne]

theorem registerList_getChecks {N D : Type} (r : Validation.AstReflection) (T : String)
    (S : String) (hS : r.getAllTypes.count S = 1) :
    ∀ (cs : List (Validation.ValidationCheck N D)) (m : Validation.ValidationChecks N D),
      (cs.foldl (fun m check =>
          Validation.doRegister r T (Validation.wrapValidationException check) m) m) S
        = m S
          ++ (if r.isSubtype S T then cs.map Validation.wrapValidationException else [])
  | [], m => by simp
  | ch :: cs, m => by
    rw [List.foldl_cons, registerList_getChecks r T S hS cs]
    rw [Validation.doRegister, doRegisterOn_getChecks r T _ S r.getAllTypes m, hS]
    cases h1 : r.isSubtype S T <;> simp [h1, List.append_assoc]

theorem register_getChecks {N D : Type} (r : Validation.AstReflection) (S : String)
    (hS : r.getAllTypes.count S = 1) :
    ∀ (record : List (String × List (Validation.ValidationCheck N D)))
      (m : Validation.ValidationChecks N D),
      Validation.getChecks (Validation.register r record m) S
        = Validation.getChecks m S
          ++ record.flatMap (fun p =>
              if r.isSubtype S p.1 then p.2.map Validation.wrapValidationException else [])
  | [], m => by simp [Validation.register, Validation.getChecks]
  | p :: record, m => by
    rw [show Validation.register r (p :: record) m
        = Validation.register r record
            (p.2.foldl (fun m check =>
              Validation.doRegister r p.1 (Validation.wrapValidationException check) m) m)
      from rfl]
    rw [register_getChecks r S hS record]
    simp only [Validation.getChecks] at *
    rw [registerList_getChecks r p.1 S hS p.2 m]
    cases h1 : r.isSubtype S p.1 <;> simp [h1, List.append_assoc]

/-- C5: registering a record of checks appends, for every statically known
subtype `S` of each registered type (per the pre-generated reflection, with
`S` listed once among all types), the wrapped checks to `S`'s check list in
registration order; `getChecks S` therefore returns exactly the checks
registered for any supertype of `S`, in registration order. -/
theorem register_appends_to_all_subtypes {N D : Type} (r : Validation.AstReflection)
    (record : List (String × List (Validation.ValidationCheck N D)))
    (m : Validation.ValidationChecks N D) (S : String)
    (hS : r.getAllTypes.count S = 1) :
    Validation.getChecks (Validation.register r record m) S
      = Validation.getChecks m S
        ++ record.flatMap (fun p =>
            if r.isSubtype S p.1 then p.2.map Validation.wrapValidationException else []) :=
  register_getChecks r S hS record m

/-- Witness for C5: with types `A` and `B`, `B` a subtype of `A`, and one
check registered for each type, `getChecks B` returns both wrapped checks
in registration order. -/
theorem register_appends_to_all_subtypes_witness :
    Validation.getChecks
        (Validation.register
          { getAllTypes := ["A", "B"]
            isSubtype := fun s t => s == t || (s == "B" && t == "A") }
          [("A", [fun _ => { diags := [1], err := none }]),
            ("B", [fun _ => { diags := [2], err := none }])]
          (Validation.emptyValidationChecks Unit Nat))
        "B"
      = Validation.getChecks (Validation.emptyValidationChecks Unit Nat) "B"
        ++ ([("A", [fun _ => { diags := [1], err := none }]),
              ("B", [fun _ => { diags := [2], err := none }])] :
                List (String × List (Validation.ValidationCheck Unit Nat))).flatMap
            (fun p =>
              if ({ getAllTypes := ["A", "B"]
                    isSubtype := fun s t => s == t || (s == "B" && t == "A") } :
                      Validation.AstReflection).isSubtype "B" p.1
              then p.2.map Validation.wrapValidationException else []) :=
  register_appends_to_all_subtypes
    { getAllTypes := ["A", "B"], isSubtype := fun s t => s == t || (s == "B" && t == "A") }
    [("A", [fun _ => { diags := [1], err := none }]),
      ("B", [fun _ => { diags := [2], err := none }])]
    (Validation.emptyValidationChecks Unit Nat) "B" (by decide)

theorem allWrapped_doRegisterOn {N D : Type} (r : Validation.AstReflection) (T : String)
    (c0 : Validation.ValidationCheck N D) :
    ∀ (types : List String) (m : Validation.ValidationChecks N D),
      Validation.AllWrapped m →
      Validation.AllWrapped
        (Validation.doRegisterOn r types T (Validation.wrapValidationException c0) m)
  | [], _, h => h
  | t :: ts, m, h => by
    rw [Validation.doRegisterOn]
    refine allWrapped_doRegisterOn r T c0 ts _ ?_
    intro s
    obtain ⟨cs, hcs⟩ := h s
    cases h1 : r.isSubtype t T
    · exact ⟨cs, by simp [h1, hcs]⟩
    · by_cases h2 : s = t
      · subst h2
        exact ⟨cs ++ [c0], by simp [h1, hcs, List.map_append]⟩
      · exact ⟨cs, by simp [h1, h2, hcs]⟩

theorem allWrapped_registerList {N D : Type} (r : Validation.AstReflection) (T : String) :
    ∀ (cs : List (Validation.ValidationCheck N D)) (m : Validation.ValidationChecks N D),
      Validation.AllWrapped m →
      Validation.AllWrapped
        (cs.foldl (fun m check =>
          Validation.doRegister r T (Validation.wrapValidationException check) m) m)
  | [], _, h => h
  | ch :: cs, m, h =>
    allWrapped_registerList r T cs _ (allWrapped_doRegisterOn r T ch r.getAllTypes m h)

theorem allWrapped_register {N D : Type} (r : Validation.AstReflection) :
    ∀ (record : List (String × List (Validation.ValidationCheck N D)))
      (m : Validation.ValidationChecks N D),
      Validation.AllWrapped m → Validation.AllWrapped (Validation.register r record m)
  | [], _, h => h
  | p :: record, m, h =>
    allWrapped_register r record _ (allWrapped_registerList r p.1 p.2 m h)

theorem runChecks_of_no_err {N D : Type} (node : N) :
    ∀ (l : List (Validation.ValidationCheck N D)),
      (∀ c ∈ l, (c node).err = none) →
      Validation.runChecks l node = (l.flatMap (fun c => (c node).diags), none)
  | [], _ => by simp [Validation.runChecks]
  | c :: l, h => by
    have hc : (c node).err = none := h c (by simp)
    have ih := runChecks_of_no_err node l (fun c' hc' => h c' (by simp [hc']))
    simp [Validation.runChecks, hc, ih]

theorem runValidation_of_allWrapped {N D : Type} (m : Validation.ValidationChecks N D)
    (hm : Validation.AllWrapped m) (typeOf : N → String) :
    ∀ (nodes : List N),
      Validation.runValidation m typeOf nodes
        = (nodes.flatMap (fun n =>
            (Validation.getChecks m (typeOf n)).flatMap (fun c => (c n).diags)), none)
  | [] => by simp [Validation.runValidation]
  | n :: nodes => by
    have herr : ∀ c ∈ Validation.getChecks m (typeOf n), (c n).err = none := by
      intro c hc
      obtain ⟨cs, hcs⟩ := hm (typeOf n)
      rw [Validation.getChecks] at hc
      rw [hcs] at hc
      obtain ⟨c0, _, rfl⟩ := List.mem_map.mp hc
      rfl
    have hrun := runChecks_of_no_err n (Validation.getChecks m (typeOf n)) herr
    have ih := runValidation_of_allWrapped m hm typeOf nodes
    simp [Validation.runValidation, hrun, ih]

theorem lookupReport_setReport_self {D : Type} (reports : List (String × PullDiagnostics.FullReport D))
    (uri : String) (rep : PullDiagnostics.FullReport D) :
    PullDiagnostics.lookupReport (PullDiagnostics.setReport reports uri rep) uri = some rep := by
  simp [PullDiagnostics.setReport, PullDiagnostics.lookupReport]

theorem lookupReport_deleteReport {D : Type} (u uri : String) :
    ∀ (reports : List (String × PullDiagnostics.FullReport D)),
      PullDiagnostics.lookupReport (PullDiagnostics.deleteReport reports u) uri
        = if uri = u then none else PullDiagnostics.lookupReport reports uri
  | [] => by simp [PullDiagnostics.deleteReport, PullDiagnostics.lookupReport]
  | (k, v) :: rest => by
    have ih := lookupReport_deleteReport (D := D) u uri rest
    by_cases hku : k = u
    · subst hku
      by_cases huk : uri = k
      · subst huk
        simp [PullDiagnostics.deleteReport, ih]
      · have hk' : ¬ k = uri := fun h => huk h.symm
        simp [PullDiagnostics.deleteReport, PullDiagnostics.lookupReport, ih, huk, hk']
    · by_cases hk : k = uri
      · subst hk
        have huu : ¬ k = u := hku
        simp [PullDiagnostics.deleteReport, PullDiagnostics.lookupReport, hku, huu]
      · simp [PullDiagnostics.deleteReport, PullDiagnostics.lookupReport, hku, hk, ih]

theorem lookupReport_deleteFold {D : Type} (uri : String) :
    ∀ (uris : List String) (reports : List (String × PullDiagnostics.FullReport D)),
      PullDiagnostics.lookupReport
          (uris.foldl (fun r u => PullDiagnostics.deleteReport r u) reports) uri
        = if uri ∈ uris then none else PullDiagnostics.lookupReport reports uri
  | [], reports => by simp
  | u :: us, reports => by
    rw [List.foldl_cons, lookupReport_deleteFold uri us, lookupReport_deleteReport u uri]
    by_cases h1 : uri ∈ us <;> by_cases h2 : uri = u <;>
      simp [h1, h2, List.mem_cons]

/-- C6: running validation over any nodes with any registered record of
checks never propagates an exception (wrapped checks catch and log), and
collects the diagnostics every check accepted — a check that throws aborts
neither the remaining checks on its node nor the checks on the remaining
nodes, so a check registered for an unrelated type still runs and reports
on the same document. -/
theorem validation_checks_run_isolated {N D : Type} (r : Validation.AstReflection)
    (record : List (String × List (Validation.ValidationCheck N D)))
    (typeOf : N → String) (nodes : List N) :
    Validation.runValidation (Validation.register r record (Validation.emptyValidationChecks N D))
        typeOf nodes
      = (nodes.flatMap (fun n =>
          (Validation.getChecks
              (Validation.register r record (Validation.emptyValidationChecks N D))
              (typeOf n)).flatMap
            (fun c => (c n).diags)),
        none) :=
  runValidation_of_allWrapped _
    (allWrapped_register r record _ (fun _ => ⟨[], rfl⟩)) typeOf nodes

/-- C7: `getDocumentDiagnostics` on a validated document with current
diagnostics `ds`, given that every previously issued result id is below the
counter: with a cached report whose id equals the caller's previous id it
returns an `unchanged` response carrying only that id and leaves the state
untouched; with a cached report and a differing (or absent) previous id it
returns the cached full report without recomputation; with no cached report
it returns a full report built from `ds` under a freshly minted id that is
strictly greater than every previously issued id, caches it, and preserves
the id invariant. -/
theorem getDocumentDiagnostics_cases {D : Type} (doc : PullDiagnostics.PDoc D)
    (prev : Option Nat) (st : PullDiagnostics.ProviderState D) (ds : List D)
    (_hstate : doc.state = PullDiagnostics.DocumentState.validated)
    (hdiag : doc.diagnostics = some ds)
    (hinv : PullDiagnostics.IssuedBelowNext st) :
    (∀ report p, PullDiagnostics.lookupReport st.existingReports doc.uri = some report →
      prev = some p → p = report.resultId →
      PullDiagnostics.getDocumentDiagnostics doc prev st = (.unchanged p, st))
    ∧ (∀ report, PullDiagnostics.lookupReport st.existingReports doc.uri = some report →
        prev ≠ some report.resultId →
        PullDiagnostics.getDocumentDiagnostics doc prev st
          = (.full report.items report.resultId, st))
    ∧ (PullDiagnostics.lookupReport st.existingReports doc.uri = none →
        (PullDiagnostics.getDocumentDiagnostics doc prev st).1 = .full ds st.nextId
        ∧ (∀ i ∈ st.issued, i < st.nextId)
        ∧ PullDiagnostics.lookupReport
            (PullDiagnostics.getDocumentDiagnostics doc prev st).2.existingReports doc.uri
            = some { items := ds, resultId := st.nextId }
        ∧ PullDiagnostics.IssuedBelowNext
            (PullDiagnostics.getDocumentDiagnostics doc prev st).2) := by
  refine ⟨?_, ?_, ?_⟩
  · intro report p hrep hp hpe
    subst hp
    subst hpe
    simp [PullDiagnostics.getDocumentDiagnostics, hrep]
  · intro report hrep hne
    cases prev with
    | none => simp [PullDiagnostics.getDocumentDiagnostics, hrep]
    | some p =>
      have hpe : ¬ p = report.resultId := fun h => hne (by rw [h])
      simp [PullDiagnostics.getDocumentDiagnostics, hrep, hpe]
  · intro hnone
    refine ⟨?_, hinv, ?_, ?_⟩
    · simp [PullDiagnostics.getDocumentDiagnostics, hnone, hdiag]
    · simp only [PullDiagnostics.getDocumentDiagnostics, hnone, hdiag]
      exact lookupReport_setReport_self st.existingReports doc.uri _
    · simp only [PullDiagnostics.getDocumentDiagnostics, hnone]
      intro i hi
      simp only [List.mem_cons] at hi
      rcases hi with rfl | hi
      · exact Nat.lt_succ_self _
      · exact Nat.lt_succ_of_lt (hinv i hi)

/-- Witness for C7: on a fresh provider state (nothing cached), requesting
diagnostics for a validated document whose diagnostics are `[7]` yields a
full report with the first result id. -/
theorem getDocumentDiagnostics_cases_witness :
    (PullDiagnostics.getDocumentDiagnostics (D := Nat)
        { uri := "file:///a.dmodel", diagnostics := some [7],
          state := PullDiagnostics.DocumentState.validated }
        none (PullDiagnostics.initialProviderState Nat)).1
      = .full [7] 0 :=
  ((getDocumentDiagnostics_cases
      { uri := "file:///a.dmodel", diagnostics := some [7],
        state := PullDiagnostics.DocumentState.validated }
      none (PullDiagnostics.initialProviderState Nat) [7] rfl rfl
      (by intro i hi; simp [PullDiagnostics.initialProviderState] at hi)).2.2 rfl).1

/-- C8: after the Document Builder reports a URI as changed or deleted, the
provider's cached report for that URI is evicted, and the next
`getDocumentDiagnostics` call for a validated document at that URI returns
a freshly computed full report from the document's current diagnostics,
under a result id strictly greater than every id issued before the
invalidation — never a cached report from before it. -/
theorem invalidation_forces_recompute {D : Type} (changed deleted : List String)
    (st : PullDiagnostics.ProviderState D) (doc : PullDiagnostics.PDoc D) (ds : List D)
    (prev : Option Nat)
    (hmem : doc.uri ∈ changed ∨ doc.uri ∈ deleted)
    (hdiag : doc.diagnostics = some ds)
    (hinv : PullDiagnostics.IssuedBelowNext st) :
    PullDiagnostics.lookupReport
        (PullDiagnostics.onUpdate changed deleted st).existingReports doc.uri = none
    ∧ (PullDiagnostics.getDocumentDiagnostics doc prev
          (PullDiagnostics.onUpdate changed deleted st)).1
        = .full ds st.nextId
    ∧ (∀ i ∈ st.issued, i < st.nextId) := by
  have hnone : PullDiagnostics.lookupReport
      (PullDiagnostics.onUpdate changed deleted st).existingReports doc.uri = none := by
    have hm : doc.uri ∈ changed ++ deleted := by
      rcases hmem with h | h
      · exact List.mem_append_left _ h
      · exact List.mem_append_right _ h
    simp only [PullDiagnostics.onUpdate, PullDiagnostics.invalidate]
    rw [lookupReport_deleteFold]
    simp [hm]
  refine ⟨hnone, ?_, hinv⟩
  simp only [PullDiagnostics.getDocumentDiagnostics, hnone, hdiag]
  rfl

/-- Witness for C8: a provider that cached report id 0 with items `[5]` for
a URI is told that URI changed; the next request (even with the stale
previous id 0) returns a fresh full report with the document's current
diagnostics `[9]` and the new id 1, not the evicted report. -/
theorem invalidation_forces_recompute_witness :
    (PullDiagnostics.getDocumentDiagnostics (D := Nat)
        { uri := "file:///a.dmodel", diagnostics := some [9],
          state := PullDiagnostics.DocumentState.validated }
        (some 0)
        (PullDiagnostics.onUpdate ["file:///a.dmodel"] []
          { nextId := 1
            existingReports := [("file:///a.dmodel", { items := [5], resultId := 0 })]
            issued := [0] })).1
      = .full [9] 1 :=
  (invalidation_forces_recompute ["file:///a.dmodel"] []
      { nextId := 1
        existingReports := [("file:///a.dmodel", { items := [5], resultId := 0 })]
        issued := [0] }
      { uri := "file:///a.dmodel", diagnostics := some [9],
        state := PullDiagnostics.DocumentState.validated }
      [9] (some 0)
      (Or.inl (by simp))
      rfl
      (by intro i hi; simp at hi; subst hi; decide)).2.1

theorem aval_sizeOf_pos : ∀ (n : Streams.AVal), 0 < sizeOf n
  | .node t ps => by simp only [Streams.AVal.node.sizeOf_spec]; omega
  | .ref r => by simp only [Streams.AVal.ref.sizeOf_spec]; omega
  | .arr es => by simp only [Streams.AVal.arr.sizeOf_spec]; omega
  | .prim => by simp only [Streams.AVal.prim.sizeOf_spec]; omega

theorem flatMap_attach_eq {α β : Type} (l : List α) (g : α → List β) :
    l.attach.flatMap (fun x => g x.1) = l.flatMap g := by
  have h1 : (l.attach.map (fun x => x.1)).flatMap g = l.attach.flatMap (fun x => g x.1) :=
    List.flatMap_map _ _ _
  have h2 : l.attach.map (fun x => x.1) = l := by
    simp
  rw [← h1, h2]

theorem streamAllContents_eq (n : Streams.AVal) :
    Streams.streamAllContents n
      = (Streams.streamContents n).flatMap
          (fun c => c :: Streams.streamAllContents c.node) := by
  rw [Streams.streamAllContents]
  exact flatMap_attach_eq (Streams.streamContents n)
    (fun c => c :: Streams.streamAllContents c.node)

theorem property_eq_of_mem_nodeContentsOfElems (p : String) (c : Streams.AstNodeContent) :
    ∀ (i : Nat) (es : Streams.Elems), c ∈ Streams.nodeContentsOfElems p i es → c.property = p
  | _, .nil, hc => by simp [Streams.nodeContentsOfElems] at hc
  | i, .cons v rest, hc => by
    simp only [Streams.nodeContentsOfElems, List.mem_append] at hc
    rcases hc with hc | hc
    · cases hv : Streams.isAstNode v <;> simp [hv] at hc
      subst hc
      rfl
    · exact property_eq_of_mem_nodeContentsOfElems p c (i + 1) rest hc

theorem notDollar_of_mem_contentsOfProp (p : String) (c : Streams.AstNodeContent) :
    ∀ (v : Streams.AVal), c ∈ Streams.contentsOfProp p v →
      startsWithDollar c.property = false
  | .node t ps, hc => by
    cases hp : startsWithDollar p <;>
      simp [Streams.contentsOfProp, hp, Streams.isAstNode] at hc
    subst hc
    exact hp
  | .ref r, hc => by
    cases hp : startsWithDollar p <;>
      simp [Streams.contentsOfProp, hp, Streams.isAstNode] at hc
  | .arr es, hc => by
    cases hp : startsWithDollar p <;>
      simp [Streams.contentsOfProp, hp, Streams.isAstNode] at hc
    rw [property_eq_of_mem_nodeContentsOfElems p c 0 es hc]
    exact hp
  | .prim, hc => by
    cases hp : startsWithDollar p <;>
      simp [Streams.contentsOfProp, hp, Streams.isAstNode] at hc

theorem notDollar_of_mem_contentsOfProps (c : Streams.AstNodeContent) :
    ∀ (ps : Streams.Props), c ∈ Streams.contentsOfProps ps →
      startsWithDollar c.property = false
  | .nil, hc => by simp [Streams.contentsOfProps] at hc
  | .cons k v rest, hc => by
    simp only [Streams.contentsOfProps, List.mem_append] at hc
    rcases hc with hc | hc
    · exact notDollar_of_mem_contentsOfProp k c v hc
    · exact notDollar_of_mem_contentsOfProps c rest hc

theorem notDollar_of_mem_streamContents (n : Streams.AVal) (c : Streams.AstNodeContent)
    (hc : c ∈ Streams.streamContents n) : startsWithDollar c.property = false :=
  match n, hc with
  | .node _ ps, hc => notDollar_of_mem_contentsOfProps c ps hc
  | .ref _, hc => by simp [Streams.streamContents] at hc
  | .arr _, hc => by simp [Streams.streamContents] at hc
  | .prim, hc => by simp [Streams.streamContents] at hc

theorem property_eq_of_mem_refsOfElems (container : Streams.AVal) (p : String)
    (a : Streams.AstNodeReference) :
    ∀ (i : Nat) (es : Streams.Elems), a ∈ Streams.refsOfElems container p i es →
      a.property = p
  | _, .nil, ha => by simp [Streams.refsOfElems] at ha
  | i, .cons v rest, ha => by
    simp only [Streams.refsOfElems, List.mem_append] at ha
    rcases ha with ha | ha
    · cases hv : Streams.isReference v <;> simp [hv] at ha
      subst ha
      rfl
    · exact property_eq_of_mem_refsOfElems container p a (i + 1) rest ha

theorem notDollar_of_mem_refsOfProp (container : Streams.AVal) (p : String)
    (a : Streams.AstNodeReference) :
    ∀ (v : Streams.AVal), a ∈ Streams.refsOfProp container p v →
      startsWithDollar a.property = false
  | .node t ps, ha => by
    cases hp : startsWithDollar p <;>
      simp [Streams.refsOfProp, hp, Streams.isReference] at ha
  | .ref r, ha => by
    cases hp : startsWithDollar p <;>
      simp [Streams.refsOfProp, hp, Streams.isReference] at ha
    subst ha
    simpa using hp
  | .arr es, ha => by
    cases hp : startsWithDollar p <;>
      simp [Streams.refsOfProp, hp, Streams.isReference] at ha
    rw [property_eq_of_mem_refsOfElems container p a 0 es ha]
    exact hp
  | .prim, ha => by
    cases hp : startsWithDollar p <;>
      simp [Streams.refsOfProp, hp, Streams.isReference] at ha

theorem notDollar_of_mem_refsOfProps (container : Streams.AVal) (a : Streams.AstNodeReference) :
    ∀ (ps : Streams.Props), a ∈ Streams.refsOfProps container ps →
      startsWithDollar a.property = false
  | .nil, ha => by simp [Streams.refsOfProps] at ha
  | .cons k v rest, ha => by
    simp only [Streams.refsOfProps, List.mem_append] at ha
    rcases ha with ha | ha
    · exact notDollar_of_mem_refsOfProp container k a v ha
    · exact notDollar_of_mem_refsOfProps container a rest ha

theorem notDollar_of_mem_streamReferences (n : Streams.AVal) (a : Streams.AstNodeReference)
    (ha : a ∈ Streams.streamReferences n) : startsWithDollar a.property = false :=
  match n, ha with
  | .node t ps, ha => notDollar_of_mem_refsOfProps (.node t ps) a ps ha
  | .ref _, ha => by simp [Streams.streamReferences] at ha
  | .arr _, ha => by simp [Streams.streamReferences] at ha
  | .prim, ha => by simp [Streams.streamReferences] at ha

theorem notDollar_of_mem_streamAllContents_bounded :
    ∀ (k : Nat) (n : Streams.AVal), sizeOf n ≤ k →
      ∀ c ∈ Streams.streamAllContents n, startsWithDollar c.property = false := by
  intro k
  induction k with
  | zero =>
    intro n hn
    exact absurd hn (by have := aval_sizeOf_pos n; omega)
  | succ k ih =>
    intro n hn c hc
    rw [streamAllContents_eq] at hc
    obtain ⟨c', hc', hcc⟩ := List.mem_flatMap.mp hc
    rcases List.mem_cons.mp hcc with rfl | hmem
    · exact notDollar_of_mem_streamContents n c hc'
    · have hsz := Streams.sizeOf_node_of_mem_streamContents n c' hc'
      exact ih c'.node (by omega) c hmem

theorem sum_nodeContentsOfElems (p : String) :
    ∀ (i : Nat) (es : Streams.Elems),
      ((Streams.nodeContentsOfElems p i es).map
        (fun c => 1 + Streams.treeNodeCount c.node)).sum = Streams.descCountElems es
  | _, .nil => by simp [Streams.nodeContentsOfElems, Streams.descCountElems]
  | i, .cons (Streams.AVal.node t ps) rest => by
    have ih := sum_nodeContentsOfElems p (i + 1) rest
    have hstep :
        Streams.nodeContentsOfElems p i (Streams.Elems.cons (Streams.AVal.node t ps) rest)
          = { node := Streams.AVal.node t ps, property := p, index := some i }
            :: Streams.nodeContentsOfElems p (i + 1) rest := rfl
    rw [hstep, List.map_cons, List.sum_cons, ih]
    rfl
  | i, .cons (Streams.AVal.ref r) rest => by
    have ih := sum_nodeContentsOfElems p (i + 1) rest
    have hstep :
        Streams.nodeContentsOfElems p i (Streams.Elems.cons (Streams.AVal.ref r) rest)
          = Streams.nodeContentsOfElems p (i + 1) rest := rfl
    have hdc : Streams.descCountElems (Streams.Elems.cons (Streams.AVal.ref r) rest)
        = 0 + Streams.descCountElems rest := rfl
    rw [hstep, ih, hdc]
    omega
  | i, .cons (Streams.AVal.arr es2) rest => by
    have ih := sum_nodeContentsOfElems p (i + 1) rest
    have hstep :
        Streams.nodeContentsOfElems p i (Streams.Elems.cons (Streams.AVal.arr es2) rest)
          = Streams.nodeContentsOfElems p (i + 1) rest := rfl
    have hdc : Streams.descCountElems (Streams.Elems.cons (Streams.AVal.arr es2) rest)
        = 0 + Streams.descCountElems rest := rfl
    rw [hstep, ih, hdc]
    omega
  | i, .cons Streams.AVal.prim rest => by
    have ih := sum_nodeContentsOfElems p (i + 1) rest
    have hstep :
        Streams.nodeContentsOfElems p i (Streams.Elems.cons Streams.AVal.prim rest)
          = Streams.nodeContentsOfElems p (i + 1) rest := rfl
    have hdc : Streams.descCountElems (Streams.Elems.cons Streams.AVal.prim rest)
        = 0 + Streams.descCountElems rest := rfl
    rw [hstep, ih, hdc]
    omega

theorem sum_contentsOfProp (p : String) :
    ∀ (v : Streams.AVal),
      ((Streams.contentsOfProp p v).map (fun c => 1 + Streams.treeNodeCount c.node)).sum
        = if startsWithDollar p then 0 else Streams.descCountVal v
  | .node t ps => by
    cases hp : startsWithDollar p <;>
      simp [Streams.contentsOfProp, hp, Streams.isAstNode, Streams.treeNodeCount,
        Streams.descCountVal]
  | .ref r => by
    cases hp : startsWithDollar p <;>
      simp [Streams.contentsOfProp, hp, Streams.isAstNode, Streams.descCountVal]
  | .arr es => by
    cases hp : startsWithDollar p <;>
      simp [Streams.contentsOfProp, hp, Streams.isAstNode, Streams.descCountVal,
        sum_nodeContentsOfElems p 0 es]
  | .prim => by
    cases hp : startsWithDollar p <;>
      simp [Streams.contentsOfProp, hp, Streams.isAstNode, Streams.descCountVal]

theorem sum_contentsOfProps :
    ∀ (ps : Streams.Props),
      ((Streams.contentsOfProps ps).map (fun c => 1 + Streams.treeNodeCount c.node)).sum
        = Streams.descCountProps ps
  | .nil => by simp [Streams.contentsOfProps, Streams.descCountProps]
  | .cons k v rest => by
    have ih := sum_contentsOfProps rest
    have h1 := sum_contentsOfProp k v
    simp [Streams.contentsOfProps, List.map_append, List.sum_append, ih, h1,
      Streams.descCountProps]

theorem sum_streamContents (n : Streams.AVal) :
    ((Streams.streamContents n).map (fun c => 1 + Streams.treeNodeCount c.node)).sum
      = Streams.treeNodeCount n :=
  match n with
  | .node t ps => by
    have h1 : Streams.streamContents (Streams.AVal.node t ps)
        = Streams.contentsOfProps ps := rfl
    have h2 : Streams.treeNodeCount (Streams.AVal.node t ps)
        = Streams.descCountProps ps := rfl
    rw [h1, h2, sum_contentsOfProps ps]
  | .ref r => by simp [Streams.streamContents, Streams.treeNodeCount]
  | .arr es => by simp [Streams.streamContents, Streams.treeNodeCount]
  | .prim => by simp [Streams.streamContents, Streams.treeNodeCount]

theorem length_flatMap_cons {α : Type} (f : α → List α) :
    ∀ (l : List α),
      (l.flatMap (fun c => c :: f c)).length = (l.map (fun c => 1 + (f c).length)).sum
  | [] => by simp
  | c :: l => by
    have ih := length_flatMap_cons f l
    simp [ih]
    omega

theorem streamAllContents_length_bounded :
    ∀ (k : Nat) (n : Streams.AVal), sizeOf n ≤ k →
      (Streams.streamAllContents n).length = Streams.treeNodeCount n := by
  intro k
  induction k with
  | zero =>
    intro n hn
    exact absurd hn (by have := aval_sizeOf_pos n; omega)
  | succ k ih =>
    intro n hn
    rw [streamAllContents_eq, length_flatMap_cons]
    have hmap : (Streams.streamContents n).map
          (fun c => 1 + (Streams.streamAllContents c.node).length)
        = (Streams.streamContents n).map (fun c => 1 + Streams.treeNodeCount c.node) := by
      apply List.map_congr_left
      intro c hc
      have hsz := Streams.sizeOf_node_of_mem_streamContents n c hc
      rw [ih c.node (by omega)]
    rw [hmap, sum_streamContents]

/-- C9: the traversals of `ast-util.ts` only yield values stored under
property names that do not start with `$` — so `$container`, `$document`
and `$cstNode` are never followed — and `streamAllContents`, whose totality
rests exactly on the non-`$` properties forming a tree, yields as many
contents as there are child-node occurrences in that tree: each child is
visited exactly once and the traversal terminates. -/
theorem stream_traversal_skips_dollar_and_visits_each_child_once (n : Streams.AVal) :
    (∀ c ∈ Streams.streamContents n, startsWithDollar c.property = false)
    ∧ (∀ a ∈ Streams.streamReferences n, startsWithDollar a.property = false)
    ∧ (∀ c ∈ Streams.streamAllContents n, startsWithDollar c.property = false)
    ∧ (Streams.streamAllContents n).length = Streams.treeNodeCount n :=
  ⟨fun c hc => notDollar_of_mem_streamContents n c hc,
    fun a ha => notDollar_of_mem_streamReferences n a ha,
    fun c hc =>
      notDollar_of_mem_streamAllContents_bounded (sizeOf n) n (Nat.le_refl _) c hc,
    streamAllContents_length_bounded (sizeOf n) n (Nat.le_refl _)⟩

end Langium
